import Mathlib

set_option maxHeartbeats 2000000

set_option allowUnsafeReducibility true in
attribute [semireducible] Rat.add Rat.mul Rat.inv Rat.sub

/-!
Verification development for the Fianco engine
(`src/fianco_new/fianco_ai/src/lib.rs`).

The board is a 9x9 grid of `Int` cells (`EMPTY = 0`, `BLACK = 1`,
`WHITE = -1`), embedded as `Fin 9 → Fin 9 → Int`.  `f64` scores are
embedded as rationals; the `u64` Zobrist hash is embedded as `Nat`
combined with `^^^` (XOR never overflows 64 bits, so no modulus is
needed).  The random Zobrist table is a parameter.  Wall-clock checks
(`start_time.elapsed() >= time_limit`) are embedded as an oracle
`clock : Nat → Bool` consulted once per check, in program order.
-/

abbrev BOARD_SIZE : Nat := 9

def EMPTY : Int := 0
def BLACK : Int := 1
def WHITE : Int := -1

def WIN_SCORE : ℚ := 1000000
def LOSE_SCORE : ℚ := -1000000

abbrev Board := Fin 9 → Fin 9 → Int

/-- A move `(from_row, from_col, to_row, to_col)`; coordinates are the
in-bounds `usize` indices of the Rust code. -/
structure Move where
  from_row : Fin 9
  from_col : Fin 9
  to_row : Fin 9
  to_col : Fin 9
deriving DecidableEq, Inhabited

/-- Point update of a board cell (`board[[r, c]] = v`). -/
def bset (b : Board) (r c : Fin 9) (v : Int) : Board :=
  fun r' c' => if r' = r ∧ c' = c then v else b r' c'

/-- Row-major enumeration of all 81 cells (`board.indexed_iter()`). -/
def allCells : List (Fin 9 × Fin 9) :=
  (List.finRange 9).flatMap (fun r => (List.finRange 9).map (fun c => (r, c)))

abbrev is_within_bounds (row col : Int) : Prop :=
  0 ≤ row ∧ row < 9 ∧ 0 ≤ col ∧ col < 9

/-- Convert an in-bounds `isize` index back to a board index
(`as usize` after `is_within_bounds`). -/
def toFin (x : Int) (h1 : 0 ≤ x) (h2 : x < 9) : Fin 9 :=
  ⟨x.toNat, by omega⟩

def directions (player : Int) : List (Int × Int) :=
  if player = BLACK then [(1, 0), (0, -1), (0, 1)]
  else if player = WHITE then [(-1, 0), (0, -1), (0, 1)]
  else []

def capture_directions (player : Int) : List (Int × Int) :=
  if player = BLACK then [(1, -1), (1, 1)]
  else if player = WHITE then [(-1, -1), (-1, 1)]
  else []

/-- One capture direction test of `get_piece_moves` (lines 655-673). -/
def capCheck (board : Board) (row col : Fin 9) (player : Int) (d : Int × Int) :
    Option Move :=
  let mid_row := (row : Int) + d.1
  let mid_col := (col : Int) + d.2
  let new_row := (row : Int) + 2 * d.1
  let new_col := (col : Int) + 2 * d.2
  if h : is_within_bounds mid_row mid_col ∧ is_within_bounds new_row new_col then
    if board (toFin mid_row h.1.1 h.1.2.1) (toFin mid_col h.1.2.2.1 h.1.2.2.2) = -player ∧
        board (toFin new_row h.2.1 h.2.2.1) (toFin new_col h.2.2.2.1 h.2.2.2.2) = EMPTY then
      some ⟨row, col, toFin new_row h.2.1 h.2.2.1, toFin new_col h.2.2.2.1 h.2.2.2.2⟩
    else none
  else none

/-- One step direction test of `get_piece_moves` (lines 680-689). -/
def stepCheck (board : Board) (row col : Fin 9) (d : Int × Int) : Option Move :=
  let new_row := (row : Int) + d.1
  let new_col := (col : Int) + d.2
  if h : is_within_bounds new_row new_col then
    if board (toFin new_row h.1 h.2.1) (toFin new_col h.2.2.1 h.2.2.2) = EMPTY then
      some ⟨row, col, toFin new_row h.1 h.2.1, toFin new_col h.2.2.1 h.2.2.2⟩
    else none
  else none

/-- `get_piece_moves` (lines 631-692): capture moves first; if a piece has
any capture, its step moves are not generated. -/
def get_piece_moves (board : Board) (row col : Fin 9) (player : Int) :
    List Move × List Move :=
  let capture_moves := (capture_directions player).filterMap (capCheck board row col player)
  if capture_moves.isEmpty then
    ((directions player).filterMap (stepCheck board row col), [])
  else
    ([], capture_moves)

/-- The shared accumulation loop of `get_valid_moves` (lines 591-599) and
`get_all_valid_moves` (lines 618-626): the pair is (step moves, capture moves). -/
def gatherMoves (board : Board) (player : Int) : List Move × List Move :=
  allCells.foldl
    (fun acc rc =>
      if board rc.1 rc.2 = player then
        let pm := get_piece_moves board rc.1 rc.2 player
        (acc.1 ++ pm.1, acc.2 ++ pm.2)
      else acc)
    ([], [])

/-- `get_valid_moves` (lines 587-606). -/
def get_valid_moves (board : Board) (player : Int) : List Move :=
  let g := gatherMoves board player
  if g.2.isEmpty then g.1 else g.2

/-- `get_all_valid_moves` (lines 608-629): returns (capture moves, normal moves). -/
def get_all_valid_moves (board : Board) (player : Int) : List Move × List Move :=
  let g := gatherMoves board player
  (g.2, g.1)

/-- `is_capture_move` (lines 418-422). -/
def is_capture_move (board : Board) (mv : Move) (player : Int) : Bool :=
  ((mv.to_row : Int) - (mv.from_row : Int)).natAbs == 2

abbrev ZTable := Fin 9 → Fin 9 → Fin 3 → Nat

/-- `piece_index` (lines 398-404). -/
def piece_index (piece : Int) : Fin 3 :=
  if piece = BLACK then 1 else if piece = WHITE then 2 else 0

/-- `compute_zobrist_hash` (lines 406-415). -/
def compute_zobrist_hash (board : Board) (zobrist_table : ZTable) : Nat :=
  allCells.foldl
    (fun hsh rc =>
      let piece_idx := piece_index (board rc.1 rc.2)
      if piece_idx ≠ 0 then hsh ^^^ zobrist_table rc.1 rc.2 piece_idx else hsh)
    0

/-- `make_move` (lines 424-458): returns the new board, the new hash and the
captured piece. -/
def make_move (board : Board) (mv : Move) (player : Int) (zobrist_hash : Nat)
    (zobrist_table : ZTable) : Board × Nat × Int :=
  let from_piece := board mv.from_row mv.from_col
  let _to_piece := board mv.to_row mv.to_col
  let zh := zobrist_hash ^^^ zobrist_table mv.from_row mv.from_col (piece_index from_piece)
  let zh := zh ^^^ zobrist_table mv.to_row mv.to_col (piece_index from_piece)
  let b := bset board mv.to_row mv.to_col from_piece
  let b := bset b mv.from_row mv.from_col EMPTY
  if ((mv.from_row : Int) - (mv.to_row : Int)).natAbs = 2 then
    let mid_row : Fin 9 :=
      ⟨((mv.from_row : Nat) + (mv.to_row : Nat)) / 2, by
        have h1 := mv.from_row.isLt; have h2 := mv.to_row.isLt; omega⟩
    let mid_col : Fin 9 :=
      ⟨((mv.from_col : Nat) + (mv.to_col : Nat)) / 2, by
        have h1 := mv.from_col.isLt; have h2 := mv.to_col.isLt; omega⟩
    let captured_piece := b mid_row mid_col
    let zh := zh ^^^ zobrist_table mid_row mid_col (piece_index captured_piece)
    (bset b mid_row mid_col EMPTY, zh, captured_piece)
  else
    (b, zh, EMPTY)

/-- `is_edge_square` (lines 547-549). -/
def is_edge_square (row col : Fin 9) : Bool :=
  col = (0 : Fin 9) ∨ col = (8 : Fin 9)

/-- `get_winner` (lines 551-585). -/
def get_winner (board : Board) : Option Int :=
  if (List.finRange 9).any (fun col => board (8 : Fin 9) col = BLACK) then
    some BLACK
  else if (List.finRange 9).any (fun col => board (0 : Fin 9) col = WHITE) then
    some WHITE
  else
    let pieces := allCells.foldl
      (fun (bw : Nat × Nat) rc =>
        let piece := board rc.1 rc.2
        if piece = BLACK then (bw.1 + 1, bw.2)
        else if piece = WHITE then (bw.1, bw.2 + 1)
        else bw)
      (0, 0)
    if pieces.1 = 0 then some WHITE
    else if pieces.2 = 0 then some BLACK
    else none

/-- The `Weights` bundle (lines 35-45); `f64` fields embedded as rationals. -/
structure Weights where
  piece_value : ℚ
  advancement_value : ℚ
  unstoppable_pawn_bonus : ℚ
  opponent_unstoppable_pawn_penalty : ℚ
  center_control_value : ℚ
  mobility_value : ℚ
  edge_pawn_bonus : ℚ
deriving DecidableEq

/-- `get_opponent_pawns_by_row` (lines 698-706): for each row, the columns
(in ascending order) holding an opponent piece. -/
def get_opponent_pawns_by_row (board : Board) (opponent : Int) :
    Fin 9 → List (Fin 9) :=
  fun row => (List.finRange 9).filter (fun col => board row col = opponent)

/-- The row loop of `is_unstoppable_pawn` (lines 728-747): `true` means some
opponent pawn disproves the pawn (the Rust `return None`); reaching
`steps_to_opp > steps_to_goal` is the `break`. -/
def scanRows (oppRows : Fin 9 → List (Fin 9))
    (row_pawn col_pawn direction steps_to_goal : Int) :
    List (Fin 9) → Bool
  | [] => false
  | row :: rest =>
    let relative_row := ((row : Int) - row_pawn) * direction
    let steps_to_opp := relative_row
    if steps_to_opp ≤ 0 then
      scanRows oppRows row_pawn col_pawn direction steps_to_goal rest
    else if steps_to_opp > steps_to_goal then
      false
    else if (oppRows row).any
        (fun col_opp => (((col_opp : Int) - col_pawn).natAbs : Int) ≤ steps_to_opp) then
      true
    else
      scanRows oppRows row_pawn col_pawn direction steps_to_goal rest

/-- `is_unstoppable_pawn` (lines 708-751). -/
def is_unstoppable_pawn (pawn_pos : Fin 9 × Fin 9) (player : Int)
    (opponent_pawns_by_row : Fin 9 → List (Fin 9)) : Option Int :=
  let row_pawn : Int := pawn_pos.1
  let col_pawn : Int := pawn_pos.2
  let row_goal : Int := if player = BLACK then 8 else 0
  let direction : Int := if player = BLACK then 1 else -1
  let steps_to_goal : Int := ((row_goal - row_pawn).natAbs : Int)
  let row_range : List (Fin 9) :=
    if player = BLACK then (List.finRange 9).filter (fun r => row_pawn < (r : Int))
    else (List.finRange 9).filter (fun r => (r : Int) < row_pawn)
  if scanRows opponent_pawns_by_row row_pawn col_pawn direction steps_to_goal row_range then
    none
  else
    some steps_to_goal

/-- `get_unstoppable_pawns_steps` (lines 753-774). -/
def get_unstoppable_pawns_steps (board : Board) (player : Int) : List Int :=
  let opponent := -player
  let opponent_pawns_by_row := get_opponent_pawns_by_row board opponent
  allCells.foldl
    (fun steps_list rc =>
      if board rc.1 rc.2 = player then
        match is_unstoppable_pawn rc player opponent_pawns_by_row with
        | some steps_to_goal => steps_list ++ [steps_to_goal]
        | none => steps_list
      else steps_list)
    []

/-- `Vec::iter().min()` on the steps lists. -/
def listMin : List Int → Option Int
  | [] => none
  | x :: xs =>
    match listMin xs with
    | none => some x
    | some m => some (min x m)

/-- `evaluate_board` (lines 460-545). -/
def evaluate_board (board : Board) (player : Int) (weights : Weights) : ℚ :=
  match get_winner board with
  | some winner => if winner = player then WIN_SCORE else LOSE_SCORE
  | none =>
    let score : ℚ := 0
    let score := allCells.foldl
      (fun score rc =>
        let piece := board rc.1 rc.2
        if piece = player then
          let score := score + weights.piece_value
          let advancement : ℚ :=
            if player = BLACK then ((rc.1 : Nat) : ℚ)
            else (((BOARD_SIZE - 1 - (rc.1 : Nat) : Nat)) : ℚ)
          let score := score + weights.advancement_value * advancement
          if is_edge_square rc.1 rc.2 then score + weights.edge_pawn_bonus else score
        else if piece = -player then
          let score := score - weights.piece_value
          let advancement : ℚ :=
            if player = BLACK then (((BOARD_SIZE - 1 - (rc.1 : Nat) : Nat)) : ℚ)
            else ((rc.1 : Nat) : ℚ)
          let score := score - weights.advancement_value * advancement
          if is_edge_square rc.1 rc.2 then score - weights.edge_pawn_bonus else score
        else score)
      score
    let ai_unstoppable_pawns := get_unstoppable_pawns_steps board player
    let opponent_unstoppable_pawns := get_unstoppable_pawns_steps board (-player)
    let score := ai_unstoppable_pawns.foldl
      (fun score steps => score + weights.unstoppable_pawn_bonus / ((steps : ℚ) + 1))
      score
    let score := opponent_unstoppable_pawns.foldl
      (fun score steps => score + weights.opponent_unstoppable_pawn_penalty / ((steps : ℚ) + 1))
      score
    let score :=
      match listMin ai_unstoppable_pawns with
      | some min_ai_steps =>
        match listMin opponent_unstoppable_pawns with
        | some min_opponent_steps =>
          if min_opponent_steps < min_ai_steps then
            score + weights.opponent_unstoppable_pawn_penalty * 2
          else if min_ai_steps < min_opponent_steps then
            score + weights.unstoppable_pawn_bonus * 2
          else score
        | none => score
      | none =>
        if opponent_unstoppable_pawns.isEmpty ∧ ¬ ai_unstoppable_pawns.isEmpty then
          score + weights.unstoppable_pawn_bonus * 2
        else if ai_unstoppable_pawns.isEmpty ∧ ¬ opponent_unstoppable_pawns.isEmpty then
          score + weights.opponent_unstoppable_pawn_penalty * 2
        else score
    score

/-! ### The search layer

`f64` scores mixed with `f64::INFINITY` / `f64::NEG_INFINITY` are embedded
as the type `XQ` (a rational or one of the two infinities).  No NaN can
arise: the search only ever negates, maximizes, minimizes and compares
these values. -/

inductive XQ where
  | ninf : XQ
  | num : ℚ → XQ
  | pinf : XQ
deriving DecidableEq

namespace XQ

def le : XQ → XQ → Bool
  | .ninf, _ => true
  | _, .pinf => true
  | .num a, .num b => a ≤ b
  | .pinf, .ninf => false
  | .pinf, .num _ => false
  | .num _, .ninf => false

/-- Strict `<` on totally ordered NaN-free floats. -/
def lt (a b : XQ) : Bool := ! le b a

def neg : XQ → XQ
  | .ninf => .pinf
  | .num a => .num (-a)
  | .pinf => .ninf

/-- `f64::max`. -/
def fmax (a b : XQ) : XQ := if le a b then b else a

/-- `f64::min`. -/
def fmin (a b : XQ) : XQ := if le b a then b else a

end XQ

inductive NodeType where
  | Exact : NodeType
  | LowerBound : NodeType
  | UpperBound : NodeType
deriving DecidableEq

/-- `TranspositionTableEntry` (lines 22-27). -/
structure TranspositionTableEntry where
  depth : Nat
  value : XQ
  flag : NodeType
  best_move : Option Move
deriving DecidableEq

/-- Outcome of the transposition-table lookup block: either return a value
and stored move immediately, or continue with (possibly tightened) bounds. -/
inductive ProbeResult where
  | ret : XQ → Option Move → ProbeResult
  | go : XQ → XQ → ProbeResult
deriving DecidableEq

/-- The transposition-table lookup block of `negamax_search`
(lines 197-227), as a function of the entry found for the hash. -/
def ttProbe (entry? : Option TranspositionTableEntry) (depth : Nat)
    (alpha beta : XQ) : ProbeResult :=
  match entry? with
  | some entry =>
    if entry.depth ≥ depth then
      match entry.flag with
      | .Exact => .ret entry.value entry.best_move
      | .LowerBound =>
        let alpha := XQ.fmax alpha entry.value
        if XQ.le beta alpha then .ret entry.value entry.best_move
        else .go alpha beta
      | .UpperBound =>
        let beta := XQ.fmin beta entry.value
        if XQ.le beta alpha then .ret entry.value entry.best_move
        else .go alpha beta
    else .go alpha beta
  | none => .go alpha beta

/-- The flag computation of the transposition-table store (lines 354-360). -/
def ttFlag (max_eval alpha_orig beta : XQ) : NodeType :=
  if XQ.le max_eval alpha_orig then .UpperBound
  else if XQ.le beta max_eval then .LowerBound
  else .Exact

/-- Per-query mutable search state: the transposition table, the repetition
counter (`HashMap` embedded as a function, an absent key being count 0),
and the index of the next wall-clock check. -/
structure SState where
  tt : Nat → Option TranspositionTableEntry
  counts : Nat → Int
  tick : Nat

/-- One `start_time.elapsed() >= time_limit` check against the clock oracle. -/
def checkTime (clock : Nat → Bool) (s : SState) : Bool × SState :=
  (clock s.tick, { s with tick := s.tick + 1 })

/-- `position_counts.entry(h).or_insert(0); *count += 1` (lines 186-187). -/
def bumpCount (h : Nat) (s : SState) : SState :=
  { s with counts := Function.update s.counts h (s.counts h + 1) }

/-- The decrement-and-remove-at-zero block repeated on every return path
(e.g. lines 371-378); removal of the key is the update to count 0. -/
def decrCount (h : Nat) (s : SState) : SState :=
  { s with counts := Function.update s.counts h (s.counts h - 1) }

/-- The move-ordering block of `negamax_search` (lines 261-304). -/
def orderMoves (entry? : Option TranspositionTableEntry)
    (first_move : Option Move) (board : Board) (player : Int)
    (moves : List Move) : List Move :=
  let head1 : List Move :=
    match first_move with
    | some mv => if moves.contains mv then [mv] else []
    | none => []
  let head2 : List Move :=
    match entry? with
    | some entry =>
      match entry.best_move with
      | some bm =>
        if some bm ≠ first_move ∧ moves.contains bm then [bm] else []
      | none => []
    | none => []
  let added := head1 ++ head2
  let rest := moves.filter (fun mv => ! added.contains mv)
  let capture_moves := rest.filter (fun mv => is_capture_move board mv player)
  let non_capture_moves := rest.filter (fun mv => ! is_capture_move board mv player)
  head1 ++ head2 ++ capture_moves ++ non_capture_moves

/-- Accumulator of the move loop (lines 306-351). -/
structure LoopAcc where
  max_eval : XQ
  best_move : Option Move
  pv_line : List Move
  alpha : XQ

abbrev SearchChild :=
  Board → Int → XQ → XQ → Nat → SState → (XQ × Option Move × List Move) × SState

/-- The move loop of `negamax_search` (lines 311-351); `child` is the
recursive call at `depth - 1`. -/
def searchMoves (child : SearchChild) (clock : Nat → Bool)
    (zobrist_table : ZTable) (board : Board) (player : Int) (beta : XQ)
    (zobrist_hash : Nat) :
    List Move → LoopAcc → SState → LoopAcc × SState
  | [], acc, s => (acc, s)
  | mv :: rest, acc, s =>
    let ts := checkTime clock s
    if ts.1 then (acc, ts.2)
    else
      let mres := make_move board mv player zobrist_hash zobrist_table
      let cres := child mres.1 (-player) (XQ.neg beta) (XQ.neg acc.alpha) mres.2.1 ts.2
      let ev := XQ.neg cres.1.1
      let acc' :=
        if XQ.lt acc.max_eval ev then
          { acc with max_eval := ev, best_move := some mv, pv_line := mv :: cres.1.2.2 }
        else acc
      let acc' := { acc' with alpha := XQ.fmax acc'.alpha ev }
      if XQ.le beta acc'.alpha then (acc', cres.2)
      else searchMoves child clock zobrist_table board player beta zobrist_hash
        rest acc' cres.2

/-- The body of `negamax_search` (lines 160-381) with the recursive call
abstracted as `child`. -/
def searchStep (child : SearchChild) (clock : Nat → Bool) (weights : Weights)
    (zobrist_table : ZTable) (board : Board) (depth : Nat) (player : Int)
    (alpha beta : XQ) (zobrist_hash : Nat) (first_move : Option Move)
    (s : SState) : (XQ × Option Move × List Move) × SState :=
  let ts := checkTime clock s
  if ts.1 then ((.num 0, none, []), ts.2)
  else
    let s := bumpCount zobrist_hash ts.2
    if s.counts zobrist_hash ≥ 3 then
      ((.num 0, none, []), decrCount zobrist_hash s)
    else
      match ttProbe (s.tt zobrist_hash) depth alpha beta with
      | .ret v bm => ((v, bm, []), decrCount zobrist_hash s)
      | .go alpha beta =>
        if depth = 0 ∨ (get_winner board).isSome then
          ((.num (evaluate_board board player weights), none, []),
            decrCount zobrist_hash s)
        else
          let alpha_orig := alpha
          let moves := get_valid_moves board player
          if moves.isEmpty then
            ((.num LOSE_SCORE, none, []), decrCount zobrist_hash s)
          else
            let ordered_moves := orderMoves (s.tt zobrist_hash) first_move board player moves
            let res := searchMoves child clock zobrist_table board player beta
              zobrist_hash ordered_moves
              ⟨.num LOSE_SCORE, none, [], alpha⟩ s
            let acc := res.1
            let flag := ttFlag acc.max_eval alpha_orig beta
            let s' := { res.2 with
              tt := Function.update res.2.tt zobrist_hash
                (some ⟨depth, acc.max_eval, flag, acc.best_move⟩) }
            ((acc.max_eval, acc.best_move, acc.pv_line), decrCount zobrist_hash s')

/-- `negamax_search` (lines 160-381), by recursion on the depth.  At depth 0
the terminal check fires before the move loop, so the child there is a
never-invoked dummy. -/
def negamax_search (clock : Nat → Bool) (weights : Weights)
    (zobrist_table : ZTable) :
    Nat → Board → Int → XQ → XQ → Nat → Option Move → SState →
    (XQ × Option Move × List Move) × SState
  | 0, board, player, alpha, beta, zobrist_hash, first_move, s =>
    searchStep (fun _ _ _ _ _ s' => ((.num 0, none, []), s'))
      clock weights zobrist_table board 0 player alpha beta zobrist_hash first_move s
  | d + 1, board, player, alpha, beta, zobrist_hash, first_move, s =>
    searchStep (fun b p a bet h s' =>
        negamax_search clock weights zobrist_table d b p a bet h none s')
      clock weights zobrist_table board (d + 1) player alpha beta zobrist_hash first_move s

/-- A committed (best_move, evaluation, pv) triple of the iterative
deepening loop. -/
abbrev Committed := Option Move × XQ × List Move

/-- The iterative-deepening loop of `negamax` (lines 106-146), iterating
over the list of remaining depths. -/
def idLoop (clock : Nat → Bool) (weights : Weights) (zobrist_table : ZTable)
    (board : Board) (player : Int) (initial_hash : Nat) :
    List Nat → Committed → SState → Committed × SState
  | [], cmt, s => (cmt, s)
  | depth :: rest, cmt, s =>
    let ts := checkTime clock s
    if ts.1 then (cmt, ts.2)
    else
      let s := { ts.2 with counts := fun h => if h = initial_hash then 1 else 0 }
      let res := negamax_search clock weights zobrist_table depth board player
        .ninf .pinf initial_hash cmt.1 s
      let ts2 := checkTime clock res.2
      if ts2.1 then (cmt, ts2.2)
      else
        match res.1.2.1 with
        | some m => idLoop clock weights zobrist_table board player initial_hash
            rest (some m, res.1.1, res.1.2.2) ts2.2
        | none => (cmt, ts2.2)

/-- `negamax` (lines 47-158).  `none` models the Rust panic of
`Duration::from_secs_f64` on a negative budget (a non-finite `f64` budget
has no rational embedding).  The random Zobrist table is a parameter, and
the wall clock is the oracle `clock`. -/
def negamax (clock : Nat → Bool) (board : Board) (max_depth : Int)
    (player : Int) (weights : Weights) (zobrist_table : ZTable)
    (time_limit : ℚ) : Option Committed :=
  if time_limit < 0 then none
  else
    let initial_hash := compute_zobrist_hash board zobrist_table
    let s0 : SState := ⟨fun _ => none, fun _ => 0, 0⟩
    let cms := get_all_valid_moves board player
    let capture_moves := cms.1
    let normal_moves := cms.2
    if ¬ capture_moves.isEmpty ∧ capture_moves.length = 1 then
      some (some (capture_moves.headI), .num (evaluate_board board player weights),
        [capture_moves.headI])
    else if capture_moves.isEmpty ∧ normal_moves.length = 1 then
      some (some (normal_moves.headI), .num (evaluate_board board player weights),
        [normal_moves.headI])
    else
      let res := idLoop clock weights zobrist_table board player initial_hash
        (List.range' 1 max_depth.toNat) (none, .num 0, []) s0
      some res.1

/-! ### Basic facts about the cell enumeration -/

theorem allCells_nodup : allCells.Nodup := by decide

theorem mem_allCells (rc : Fin 9 × Fin 9) : rc ∈ allCells := by
  revert rc; decide

/-- Coercion of `toFin` back to `Int`. -/
theorem toFin_coe (x : Int) (h1 : 0 ≤ x) (h2 : x < 9) :
    ((toFin x h1 h2 : Fin 9) : Int) = x := by
  simp [toFin]
  omega

/-! ### Structure of the move generator -/

theorem gather_aux (b : Board) (p : Int) :
    ∀ (l : List (Fin 9 × Fin 9)) (acc : List Move × List Move),
      l.foldl
        (fun acc rc =>
          if b rc.1 rc.2 = p then
            let pm := get_piece_moves b rc.1 rc.2 p
            (acc.1 ++ pm.1, acc.2 ++ pm.2)
          else acc)
        acc =
      (acc.1 ++ l.flatMap (fun rc =>
          if b rc.1 rc.2 = p then (get_piece_moves b rc.1 rc.2 p).1 else []),
       acc.2 ++ l.flatMap (fun rc =>
          if b rc.1 rc.2 = p then (get_piece_moves b rc.1 rc.2 p).2 else []))
  | [], acc => by simp
  | rc :: t, acc => by
    by_cases hown : b rc.1 rc.2 = p
    · simp only [List.foldl_cons, hown, if_true, List.flatMap_cons,
        gather_aux b p t, List.append_assoc]
    · simp only [List.foldl_cons, hown, if_false, List.flatMap_cons,
        gather_aux b p t, List.nil_append, List.append_assoc]

theorem gatherMoves_eq (b : Board) (p : Int) :
    gatherMoves b p =
      (allCells.flatMap (fun rc =>
          if b rc.1 rc.2 = p then (get_piece_moves b rc.1 rc.2 p).1 else []),
       allCells.flatMap (fun rc =>
          if b rc.1 rc.2 = p then (get_piece_moves b rc.1 rc.2 p).2 else [])) := by
  have h := gather_aux b p allCells ([], [])
  simpa [gatherMoves] using h

theorem mem_gather_captures {b : Board} {p : Int} {mv : Move}
    (h : mv ∈ (gatherMoves b p).2) :
    ∃ rc : Fin 9 × Fin 9, b rc.1 rc.2 = p ∧ mv ∈ (get_piece_moves b rc.1 rc.2 p).2 := by
  rw [gatherMoves_eq] at h
  simp only [List.mem_flatMap] at h
  obtain ⟨rc, _, hmem⟩ := h
  by_cases hown : b rc.1 rc.2 = p
  · exact ⟨rc, hown, by simpa [hown] using hmem⟩
  · simp [hown] at hmem

theorem mem_gather_steps {b : Board} {p : Int} {mv : Move}
    (h : mv ∈ (gatherMoves b p).1) :
    ∃ rc : Fin 9 × Fin 9, b rc.1 rc.2 = p ∧ mv ∈ (get_piece_moves b rc.1 rc.2 p).1 := by
  rw [gatherMoves_eq] at h
  simp only [List.mem_flatMap] at h
  obtain ⟨rc, _, hmem⟩ := h
  by_cases hown : b rc.1 rc.2 = p
  · exact ⟨rc, hown, by simpa [hown] using hmem⟩
  · simp [hown] at hmem

theorem mem_piece_captures {b : Board} {r c : Fin 9} {p : Int} {mv : Move}
    (h : mv ∈ (get_piece_moves b r c p).2) :
    ∃ d ∈ capture_directions p, capCheck b r c p d = some mv := by
  unfold get_piece_moves at h
  dsimp only at h
  split at h
  · simp at h
  · obtain ⟨d, hd, hc⟩ := List.mem_filterMap.mp h
    exact ⟨d, hd, hc⟩

theorem mem_piece_steps {b : Board} {r c : Fin 9} {p : Int} {mv : Move}
    (h : mv ∈ (get_piece_moves b r c p).1) :
    ∃ d ∈ directions p, stepCheck b r c d = some mv := by
  unfold get_piece_moves at h
  dsimp only at h
  split at h
  · obtain ⟨d, hd, hc⟩ := List.mem_filterMap.mp h
    exact ⟨d, hd, hc⟩
  · simp at h

theorem mem_capture_directions {p : Int} {d : Int × Int}
    (h : d ∈ capture_directions p) :
    (d.1 = 1 ∨ d.1 = -1) ∧ (d.2 = 1 ∨ d.2 = -1) := by
  unfold capture_directions at h
  split_ifs at h <;> simp at h <;> rcases h with rfl | rfl <;> simp

theorem mem_directions {p : Int} {d : Int × Int}
    (h : d ∈ directions p) :
    (d.1 = 1 ∨ d.1 = -1 ∨ d.1 = 0) ∧ (d.2 = 1 ∨ d.2 = -1 ∨ d.2 = 0) ∧
      ¬ (d.1 = 0 ∧ d.2 = 0) := by
  unfold directions at h
  split_ifs at h <;> simp at h <;> rcases h with rfl | rfl | rfl <;> simp

theorem capCheck_some {b : Board} {r c : Fin 9} {p : Int} {d : Int × Int} {mv : Move}
    (h : capCheck b r c p d = some mv) :
    mv.from_row = r ∧ mv.from_col = c ∧
    (mv.to_row : Int) = (r : Int) + 2 * d.1 ∧
    (mv.to_col : Int) = (c : Int) + 2 * d.2 ∧
    b mv.to_row mv.to_col = EMPTY ∧
    ∃ mr mc : Fin 9, (mr : Int) = (r : Int) + d.1 ∧ (mc : Int) = (c : Int) + d.2 ∧
      b mr mc = -p := by
  unfold capCheck at h
  dsimp only at h
  split at h
  case isTrue hb =>
    split at h
    case isTrue hcells =>
      have hmv := (Option.some.inj h).symm
      subst hmv
      exact ⟨rfl, rfl, toFin_coe _ hb.2.1 hb.2.2.1, toFin_coe _ hb.2.2.2.1 hb.2.2.2.2,
        hcells.2, toFin _ hb.1.1 hb.1.2.1, toFin _ hb.1.2.2.1 hb.1.2.2.2,
        toFin_coe _ hb.1.1 hb.1.2.1, toFin_coe _ hb.1.2.2.1 hb.1.2.2.2, hcells.1⟩
    case isFalse => exact absurd h (by simp)
  case isFalse => exact absurd h (by simp)

theorem stepCheck_some {b : Board} {r c : Fin 9} {d : Int × Int} {mv : Move}
    (h : stepCheck b r c d = some mv) :
    mv.from_row = r ∧ mv.from_col = c ∧
    (mv.to_row : Int) = (r : Int) + d.1 ∧
    (mv.to_col : Int) = (c : Int) + d.2 ∧
    b mv.to_row mv.to_col = EMPTY := by
  unfold stepCheck at h
  dsimp only at h
  split at h
  case isTrue hb =>
    split at h
    case isTrue hcells =>
      have hmv := (Option.some.inj h).symm
      subst hmv
      exact ⟨rfl, rfl, toFin_coe _ hb.1 hb.2.1, toFin_coe _ hb.2.2.1 hb.2.2.2, hcells⟩
    case isFalse => exact absurd h (by simp)
  case isFalse => exact absurd h (by simp)

theorem gather_capture_delta {b : Board} {p : Int} {mv : Move}
    (h : mv ∈ (gatherMoves b p).2) :
    ((mv.to_row : Int) - (mv.from_row : Int)).natAbs = 2 := by
  obtain ⟨rc, _, hpc⟩ := mem_gather_captures h
  obtain ⟨d, hd, hcap⟩ := mem_piece_captures hpc
  obtain ⟨hfr, _, htr, _⟩ := capCheck_some hcap
  obtain ⟨hd1, _⟩ := mem_capture_directions hd
  rcases hd1 with h1 | h1 <;> rw [hfr, htr, h1] <;> simp

theorem gather_step_delta {b : Board} {p : Int} {mv : Move}
    (h : mv ∈ (gatherMoves b p).1) :
    ((mv.to_row : Int) - (mv.from_row : Int)).natAbs ≠ 2 := by
  obtain ⟨rc, _, hps⟩ := mem_gather_steps h
  obtain ⟨d, hd, hstep⟩ := mem_piece_steps hps
  obtain ⟨hfr, _, htr, _⟩ := stepCheck_some hstep
  obtain ⟨hd1, _, _⟩ := mem_directions hd
  rcases hd1 with h1 | h1 | h1 <;> rw [hfr, htr, h1] <;> simp

/-! ### Concrete boards and weights used by witnesses and counterexamples -/

/-- Black at (4,4), white at (7,1): no captures, three black steps. -/
def boardA : Board := fun r c =>
  if r = (4 : Fin 9) ∧ c = (4 : Fin 9) then BLACK
  else if r = (7 : Fin 9) ∧ c = (1 : Fin 9) then WHITE
  else EMPTY

/-- Black at (4,4), white at (7,0): non-terminal, Black has three steps,
White only two (the edge blocks one sideways step). -/
def boardB : Board := fun r c =>
  if r = (4 : Fin 9) ∧ c = (4 : Fin 9) then BLACK
  else if r = (7 : Fin 9) ∧ c = (0 : Fin 9) then WHITE
  else EMPTY

/-- Black at (3,4), white at (4,5): black has the capture (3,4)→(5,6). -/
def boardCap : Board := fun r c =>
  if r = (3 : Fin 9) ∧ c = (4 : Fin 9) then BLACK
  else if r = (4 : Fin 9) ∧ c = (5 : Fin 9) then WHITE
  else EMPTY

/-- Black at (4,4), white at (5,0): both pawns are unstoppable. -/
def boardRace : Board := fun r c =>
  if r = (4 : Fin 9) ∧ c = (4 : Fin 9) then BLACK
  else if r = (5 : Fin 9) ∧ c = (0 : Fin 9) then WHITE
  else EMPTY

/-- Black at (0,0), white at (8,8): neither pawn is unstoppable. -/
def boardTame : Board := fun r c =>
  if r = (0 : Fin 9) ∧ c = (0 : Fin 9) then BLACK
  else if r = (8 : Fin 9) ∧ c = (8 : Fin 9) then WHITE
  else EMPTY

def weights0 : Weights := ⟨0, 0, 0, 0, 0, 0, 0⟩

/-- All-zero weights except `center_control_value`. -/
def weightsCenter : Weights := ⟨0, 0, 0, 0, 100, 0, 0⟩

/-- All-zero weights except `mobility_value`. -/
def weightsMobility : Weights := ⟨0, 0, 0, 0, 0, 100, 0⟩

/-- All-zero weights except `unstoppable_pawn_bonus`. -/
def weightsRace : Weights := ⟨0, 0, 100, 0, 0, 0, 0⟩

/-! ### C1: mandatory capture in `get_valid_moves` -/

/-- C1.  For every board and side: if any capture is available anywhere for
that side (the gathered capture list is non-empty), `get_valid_moves`
returns exactly those capture moves — every returned move is a capture and
no step move appears; if no capture is available, it returns exactly the
gathered step moves, and none of them is a capture. -/
theorem C1_mandatory_capture (b : Board) (p : Int) :
    ((gatherMoves b p).2 ≠ [] →
      get_valid_moves b p = (gatherMoves b p).2 ∧
      ∀ mv ∈ get_valid_moves b p, is_capture_move b mv p = true) ∧
    ((gatherMoves b p).2 = [] →
      get_valid_moves b p = (gatherMoves b p).1 ∧
      ∀ mv ∈ get_valid_moves b p, is_capture_move b mv p = false) := by
  constructor
  · intro hne
    have hval : get_valid_moves b p = (gatherMoves b p).2 := by
      unfold get_valid_moves
      simp [List.isEmpty_iff, hne]
    refine ⟨hval, ?_⟩
    intro mv hmv
    rw [hval] at hmv
    have := gather_capture_delta hmv
    simp [is_capture_move, this]
  · intro hemp
    have hval : get_valid_moves b p = (gatherMoves b p).1 := by
      unfold get_valid_moves
      simp [List.isEmpty_iff, hemp]
    refine ⟨hval, ?_⟩
    intro mv hmv
    rw [hval] at hmv
    have := gather_step_delta hmv
    simpa [is_capture_move] using this

/-- Witness for C1 at two concrete positions: `boardCap` has a capture
available for Black and the generator returns only that capture; `boardA`
has none and the generator returns the three black steps. -/
theorem C1_mandatory_capture_witness :
    ((gatherMoves boardCap BLACK).2 ≠ [] ∧
      get_valid_moves boardCap BLACK = (gatherMoves boardCap BLACK).2 ∧
      (∀ mv ∈ get_valid_moves boardCap BLACK, is_capture_move boardCap mv BLACK = true)) ∧
    ((gatherMoves boardA BLACK).2 = [] ∧
      get_valid_moves boardA BLACK = (gatherMoves boardA BLACK).1 ∧
      (∀ mv ∈ get_valid_moves boardA BLACK, is_capture_move boardA mv BLACK = false)) :=
  ⟨⟨by decide, (C1_mandatory_capture boardCap BLACK).1 (by decide)⟩,
   ⟨by decide, (C1_mandatory_capture boardA BLACK).2 (by decide)⟩⟩

/-! ### C2: the evaluator ignores `center_control_value` and `mobility_value` -/

/-- Counterexample to C2.  `boardA` has a Black piece on the centre cell
(4,4) and is non-terminal, yet the score is identical under weight bundles
that differ only in `center_control_value` (resp. only in
`mobility_value`): `evaluate_board` has no centre-control and no mobility
term. -/
theorem C2_centre_mobility_counterexample :
    evaluate_board boardB BLACK weightsCenter = evaluate_board boardB BLACK weights0 ∧
    evaluate_board boardB BLACK weightsMobility = evaluate_board boardB BLACK weights0 ∧
    weightsCenter.center_control_value ≠ weights0.center_control_value ∧
    weightsMobility.mobility_value ≠ weights0.mobility_value ∧
    boardB (4 : Fin 9) (4 : Fin 9) = BLACK ∧
    get_winner boardB = none ∧
    (get_valid_moves boardB BLACK).length ≠ (get_valid_moves boardB WHITE).length := by
  refine ⟨?_, ?_, by decide, by decide, by decide, by decide, by decide⟩ <;> decide

/-- C2 amended: the static evaluation is independent of
`center_control_value` and `mobility_value`; changing only those two
fields never changes the returned score, on any board. -/
theorem C2_centre_mobility_amended (b : Board) (p : Int) (w : Weights) (cv mv : ℚ) :
    evaluate_board b p { w with center_control_value := cv, mobility_value := mv } =
      evaluate_board b p w := by
  cases w
  rfl

/-! ### C10: frame effect of `make_move` -/

theorem bset_eq (b : Board) (r c : Fin 9) (v : Int) : bset b r c v r c = v := by
  simp [bset]

theorem bset_ne (b : Board) (r c : Fin 9) (v : Int) (r' c' : Fin 9)
    (h : ¬ (r' = r ∧ c' = c)) : bset b r c v r' c' = b r' c' := by
  simp [bset, h]

/-- Midpoint coordinate of a capture leap, `(a + b) / 2` in `usize`. -/
def midCell (a b : Fin 9) : Fin 9 :=
  ⟨((a : Nat) + (b : Nat)) / 2, by have h1 := a.isLt; have h2 := b.isLt; omega⟩

def ztable0 : ZTable := fun _ _ _ => 0

/-- The degenerate no-op move used by the C10 counterexample. -/
def mvNull : Move := ⟨0, 0, 0, 0⟩

/-- Counterexample to C10.  For the move (0,0)→(0,0) on a board with a
Black piece at (0,0), `make_move` writes the destination first and then
empties the source, so the destination cell ends `EMPTY`, not the moving
piece as the claim requires of every move. -/
theorem C10_frame_counterexample :
    (make_move boardTame mvNull BLACK 0 ztable0).1 (0 : Fin 9) (0 : Fin 9) = EMPTY ∧
    boardTame (0 : Fin 9) (0 : Fin 9) = BLACK ∧
    ((mvNull.to_row : Int) - (mvNull.from_row : Int)).natAbs ≠ 2 ∧
    BLACK ≠ EMPTY := by
  refine ⟨by decide, by decide, by decide, by decide⟩

/-- C10 amended: for every board, side and move whose source and
destination cells differ, `make_move` sets the destination to the moving
piece and the source to `EMPTY`; when `|to_row − from_row| ≠ 2` it changes
no other cell and returns `EMPTY`, and when `|to_row − from_row| = 2` it
additionally empties exactly the midpoint cell and returns that cell's
previous content. -/
theorem C10_make_move_frame (b : Board) (mv : Move) (p : Int) (zh : Nat)
    (zt : ZTable) (hne : ¬ (mv.from_row = mv.to_row ∧ mv.from_col = mv.to_col)) :
    (((mv.from_row : Int) - (mv.to_row : Int)).natAbs ≠ 2 →
      (make_move b mv p zh zt).1 mv.to_row mv.to_col = b mv.from_row mv.from_col ∧
      (make_move b mv p zh zt).1 mv.from_row mv.from_col = EMPTY ∧
      (make_move b mv p zh zt).2.2 = EMPTY ∧
      ∀ r c : Fin 9, ¬ (r = mv.from_row ∧ c = mv.from_col) →
        ¬ (r = mv.to_row ∧ c = mv.to_col) →
        (make_move b mv p zh zt).1 r c = b r c) ∧
    (((mv.from_row : Int) - (mv.to_row : Int)).natAbs = 2 →
      (make_move b mv p zh zt).1 mv.to_row mv.to_col = b mv.from_row mv.from_col ∧
      (make_move b mv p zh zt).1 mv.from_row mv.from_col = EMPTY ∧
      (make_move b mv p zh zt).1 (midCell mv.from_row mv.to_row)
        (midCell mv.from_col mv.to_col) = EMPTY ∧
      (make_move b mv p zh zt).2.2 =
        b (midCell mv.from_row mv.to_row) (midCell mv.from_col mv.to_col) ∧
      ∀ r c : Fin 9, ¬ (r = mv.from_row ∧ c = mv.from_col) →
        ¬ (r = mv.to_row ∧ c = mv.to_col) →
        ¬ (r = midCell mv.from_row mv.to_row ∧ c = midCell mv.from_col mv.to_col) →
        (make_move b mv p zh zt).1 r c = b r c) := by
  constructor
  · intro hcap
    unfold make_move
    dsimp only
    rw [if_neg hcap]
    dsimp only
    refine ⟨?_, ?_, rfl, ?_⟩
    · rw [bset_ne _ _ _ _ _ _ (by tauto), bset_eq]
    · rw [bset_eq]
    · intro r c hf ht
      rw [bset_ne _ _ _ _ _ _ hf, bset_ne _ _ _ _ _ _ ht]
  · intro hcap
    have hrow : (mv.from_row : Nat) + 2 = (mv.to_row : Nat) ∨
        (mv.to_row : Nat) + 2 = (mv.from_row : Nat) := by omega
    have hmidf : ¬ ((midCell mv.from_row mv.to_row : Fin 9) = mv.from_row ∧
        (midCell mv.from_col mv.to_col : Fin 9) = mv.from_col) := by
      intro hx
      have := congrArg (fun z : Fin 9 => (z : Nat)) hx.1
      simp [midCell] at this
      omega
    have hmidt : ¬ ((midCell mv.from_row mv.to_row : Fin 9) = mv.to_row ∧
        (midCell mv.from_col mv.to_col : Fin 9) = mv.to_col) := by
      intro hx
      have := congrArg (fun z : Fin 9 => (z : Nat)) hx.1
      simp [midCell] at this
      omega
    unfold make_move
    dsimp only
    rw [if_pos hcap]
    dsimp only
    have hmid_def : (⟨((mv.from_row : Nat) + (mv.to_row : Nat)) / 2, by
        have h1 := mv.from_row.isLt; have h2 := mv.to_row.isLt; omega⟩ : Fin 9) =
        midCell mv.from_row mv.to_row := rfl
    have hmid_def2 : (⟨((mv.from_col : Nat) + (mv.to_col : Nat)) / 2, by
        have h1 := mv.from_col.isLt; have h2 := mv.to_col.isLt; omega⟩ : Fin 9) =
        midCell mv.from_col mv.to_col := rfl
    rw [hmid_def, hmid_def2]
    refine ⟨?_, ?_, ?_, ?_, ?_⟩
    · rw [bset_ne _ _ _ _ _ _ (fun hx => hmidt ⟨hx.1.symm, hx.2.symm⟩),
        bset_ne _ _ _ _ _ _ (by tauto), bset_eq]
    · rw [bset_ne _ _ _ _ _ _ (fun hx => hmidf ⟨hx.1.symm, hx.2.symm⟩), bset_eq]
    · rw [bset_eq]
    · rw [bset_ne _ _ _ _ _ _ hmidf, bset_ne _ _ _ _ _ _ hmidt]
    · intro r c hf ht hm
      rw [bset_ne _ _ _ _ _ _ hm, bset_ne _ _ _ _ _ _ hf, bset_ne _ _ _ _ _ _ ht]

/-- Witness for C10 at a concrete step move and a concrete capture. -/
theorem C10_make_move_frame_witness :
    (¬ ((⟨4, 4, 5, 4⟩ : Move).from_row = (⟨4, 4, 5, 4⟩ : Move).to_row ∧
        (⟨4, 4, 5, 4⟩ : Move).from_col = (⟨4, 4, 5, 4⟩ : Move).to_col)) ∧
    (((make_move boardA ⟨4, 4, 5, 4⟩ BLACK 0 ztable0).1 (5 : Fin 9) (4 : Fin 9) =
        boardA (4 : Fin 9) (4 : Fin 9)) ∧
      (make_move boardCap ⟨3, 4, 5, 6⟩ BLACK 0 ztable0).2.2 =
        boardCap (4 : Fin 9) (5 : Fin 9)) := by
  refine ⟨by decide, ?_, ?_⟩
  · exact ((C10_make_move_frame boardA ⟨4, 4, 5, 4⟩ BLACK 0 ztable0 (by decide)).1
      (by decide)).1
  · exact ((C10_make_move_frame boardCap ⟨3, 4, 5, 6⟩ BLACK 0 ztable0 (by decide)).2
      (by decide)).2.2.2.1

/-! ### C3: incremental Zobrist hash = recomputed hash -/

/-- Contribution of one cell to the Zobrist hash. -/
def cellz (b : Board) (zt : ZTable) (rc : Fin 9 × Fin 9) : Nat :=
  if piece_index (b rc.1 rc.2) ≠ 0 then zt rc.1 rc.2 (piece_index (b rc.1 rc.2)) else 0

def xorFold (f : Fin 9 × Fin 9 → Nat) (l : List (Fin 9 × Fin 9)) : Nat :=
  l.foldl (fun h x => h ^^^ f x) 0

theorem xor_left_comm (a b c : Nat) : a ^^^ (b ^^^ c) = b ^^^ (a ^^^ c) := by
  rw [← Nat.xor_assoc, Nat.xor_comm a b, Nat.xor_assoc]

theorem xor_cancel_left (a b : Nat) : a ^^^ (a ^^^ b) = b := by
  rw [← Nat.xor_assoc, Nat.xor_self, Nat.zero_xor]

theorem foldl_xor_init (f : Fin 9 × Fin 9 → Nat) :
    ∀ (l : List (Fin 9 × Fin 9)) (i : Nat),
      l.foldl (fun h x => h ^^^ f x) i = i ^^^ xorFold f l
  | [], i => by simp [xorFold]
  | x :: t, i => by
    simp only [xorFold, List.foldl_cons, Nat.zero_xor]
    rw [foldl_xor_init f t (i ^^^ f x), foldl_xor_init f t (f x), Nat.xor_assoc]

theorem xorFold_cons (f : Fin 9 × Fin 9 → Nat) (x : Fin 9 × Fin 9)
    (t : List (Fin 9 × Fin 9)) : xorFold f (x :: t) = f x ^^^ xorFold f t := by
  simp only [xorFold, List.foldl_cons, Nat.zero_xor]
  exact foldl_xor_init f t (f x)

theorem xorFold_congr (f g : Fin 9 × Fin 9 → Nat) :
    ∀ (l : List (Fin 9 × Fin 9)), (∀ x ∈ l, f x = g x) → xorFold f l = xorFold g l
  | [], _ => rfl
  | x :: t, h => by
    rw [xorFold_cons, xorFold_cons, h x (by simp),
      xorFold_congr f g t (fun y hy => h y (by simp [hy]))]

theorem xorFold_update (f g : Fin 9 × Fin 9 → Nat) (a : Fin 9 × Fin 9) :
    ∀ (l : List (Fin 9 × Fin 9)), l.Nodup → a ∈ l →
      (∀ x ∈ l, x ≠ a → g x = f x) →
      xorFold g l = xorFold f l ^^^ f a ^^^ g a
  | [], _, ha, _ => by simp at ha
  | x :: t, hnd, ha, hcong => by
    rcases List.mem_cons.mp ha with rfl | hat
    · have hnot : a ∉ t := (List.nodup_cons.mp hnd).1
      have ht : xorFold g t = xorFold f t :=
        xorFold_congr g f t (fun y hy => hcong y (by simp [hy])
          (fun hya => hnot (hya ▸ hy)))
      rw [xorFold_cons, xorFold_cons, ht]
      simp [Nat.xor_assoc, Nat.xor_comm, xor_left_comm, xor_cancel_left,
        Nat.xor_self, Nat.xor_zero, Nat.zero_xor]
    · have hxa : x ≠ a := fun hxa => (List.nodup_cons.mp hnd).1 (hxa ▸ hat)
      rw [xorFold_cons, xorFold_cons, hcong x (by simp) hxa,
        xorFold_update f g a t (List.nodup_cons.mp hnd).2 hat
          (fun y hy => hcong y (by simp [hy]))]
      simp [Nat.xor_assoc]

theorem compute_zobrist_eq_xorFold (b : Board) (zt : ZTable) :
    compute_zobrist_hash b zt = xorFold (cellz b zt) allCells := by
  unfold compute_zobrist_hash xorFold
  apply List.foldl_ext
  intro acc rc _
  dsimp only [cellz]
  split <;> simp

theorem zhash_bset (b : Board) (zt : ZTable) (r c : Fin 9) (v : Int) :
    compute_zobrist_hash (bset b r c v) zt =
      compute_zobrist_hash b zt ^^^ cellz b zt (r, c) ^^^ cellz (bset b r c v) zt (r, c) := by
  rw [compute_zobrist_eq_xorFold, compute_zobrist_eq_xorFold]
  exact xorFold_update (cellz b zt) (cellz (bset b r c v) zt) (r, c) allCells
    allCells_nodup (mem_allCells _)
    (fun x _ hx => by
      have hne : ¬ (x.1 = r ∧ x.2 = c) := by
        intro hc
        exact hx (Prod.ext hc.1 hc.2)
      simp [cellz, bset, hne])

/-- Coordinates of the capture midpoint as integers. -/
theorem midCell_coe (a b : Fin 9) :
    ((midCell a b : Fin 9) : Int) = (((a : Nat) + (b : Nat)) / 2 : Nat) := rfl

/-- What membership in `get_valid_moves` guarantees about a move: the
source holds the mover's piece, the destination is empty, source and
destination differ, and a capture move jumps over an opposing piece on the
midpoint cell, which differs from both endpoints. -/
theorem mem_valid_facts {b : Board} {p : Int} {mv : Move}
    (h : mv ∈ get_valid_moves b p) :
    b mv.from_row mv.from_col = p ∧ b mv.to_row mv.to_col = EMPTY ∧
    ¬ (mv.from_row = mv.to_row ∧ mv.from_col = mv.to_col) ∧
    (((mv.from_row : Int) - (mv.to_row : Int)).natAbs = 2 →
      b (midCell mv.from_row mv.to_row) (midCell mv.from_col mv.to_col) = -p ∧
      midCell mv.from_row mv.to_row ≠ mv.from_row ∧
      midCell mv.from_row mv.to_row ≠ mv.to_row) := by
  unfold get_valid_moves at h
  dsimp only at h
  split at h
  case isTrue hemp =>
    obtain ⟨rc, hown, hps⟩ := mem_gather_steps h
    obtain ⟨d, hd, hstep⟩ := mem_piece_steps hps
    obtain ⟨hfr, hfc, htr, htc, hempto⟩ := stepCheck_some hstep
    obtain ⟨hd1, hd2, hd0⟩ := mem_directions hd
    refine ⟨by rw [hfr, hfc]; exact hown, hempto, ?_, ?_⟩
    · intro hc
      have h1 : ((mv.from_row : Fin 9) : Int) = ((mv.to_row : Fin 9) : Int) := by
        rw [hc.1]
      have h2 : ((mv.from_col : Fin 9) : Int) = ((mv.to_col : Fin 9) : Int) := by
        rw [hc.2]
      apply hd0
      constructor <;> omega
    · intro hcap
      exfalso
      rcases hd1 with h1 | h1 | h1 <;> rw [h1] at htr <;> omega
  case isFalse hemp =>
    obtain ⟨rc, hown, hpc⟩ := mem_gather_captures h
    obtain ⟨d, hd, hcap⟩ := mem_piece_captures hpc
    obtain ⟨hfr, hfc, htr, htc, hempto, mr, mc, hmr, hmc, hmid⟩ := capCheck_some hcap
    obtain ⟨hd1, hd2⟩ := mem_capture_directions hd
    have hrow2 : (mv.to_row : Int) = (mv.from_row : Int) + 2 * d.1 := by
      rw [hfr]; exact htr
    have hcol2 : (mv.to_col : Int) = (mv.from_col : Int) + 2 * d.2 := by
      rw [hfc]; exact htc
    have hmr2 : (mr : Int) = (mv.from_row : Int) + d.1 := by rw [hfr]; exact hmr
    have hmc2 : (mc : Int) = (mv.from_col : Int) + d.2 := by rw [hfc]; exact hmc
    have hmreq : midCell mv.from_row mv.to_row = mr := by
      apply Fin.ext
      have hco := midCell_coe mv.from_row mv.to_row
      rcases hd1 with h1 | h1 <;> rw [h1] at hrow2 hmr2 <;> omega
    have hmceq : midCell mv.from_col mv.to_col = mc := by
      apply Fin.ext
      have hco := midCell_coe mv.from_col mv.to_col
      rcases hd2 with h2 | h2 <;> rw [h2] at hcol2 hmc2 <;> omega
    refine ⟨by rw [hfr, hfc]; exact hown, hempto, ?_, fun _ => ⟨?_, ?_, ?_⟩⟩
    · intro hc
      have h1 : ((mv.from_row : Fin 9) : Int) = ((mv.to_row : Fin 9) : Int) := by
        rw [hc.1]
      rcases hd1 with hh | hh <;> rw [hh] at hrow2 <;> omega
    · rw [hmreq, hmceq]; exact hmid
    · rw [hmreq]
      intro hx
      have h1 : ((mr : Fin 9) : Int) = ((mv.from_row : Fin 9) : Int) := by rw [hx]
      rcases hd1 with hh | hh <;> rw [hh] at hmr2 <;> omega
    · rw [hmreq]
      intro hx
      have h1 : ((mr : Fin 9) : Int) = ((mv.to_row : Fin 9) : Int) := by rw [hx]
      rcases hd1 with hh | hh <;> rw [hh] at hmr2 hrow2 <;> omega

/-- One legal `make_move` keeps the incrementally updated hash equal to the
hash recomputed from scratch. -/
theorem make_move_hash (zt : ZTable) {b : Board} {p : Int} {mv : Move}
    (hp : p = BLACK ∨ p = WHITE) (hmem : mv ∈ get_valid_moves b p) :
    (make_move b mv p (compute_zobrist_hash b zt) zt).2.1 =
      compute_zobrist_hash (make_move b mv p (compute_zobrist_hash b zt) zt).1 zt := by
  obtain ⟨hfrom, hto, hnefc, hcapf⟩ := mem_valid_facts hmem
  have hpne : piece_index p ≠ 0 := by rcases hp with rfl | rfl <;> decide
  have hpne2 : piece_index (-p) ≠ 0 := by rcases hp with rfl | rfl <;> decide
  have hpe : piece_index EMPTY = 0 := by decide
  unfold make_move
  dsimp only
  rw [hfrom]
  split
  case isTrue hcap =>
    obtain ⟨hmid, hmf, hmt⟩ := hcapf hcap
    have hmd1 : (⟨((mv.from_row : Nat) + (mv.to_row : Nat)) / 2, by
        have h1 := mv.from_row.isLt; have h2 := mv.to_row.isLt; omega⟩ : Fin 9) =
        midCell mv.from_row mv.to_row := rfl
    have hmd2 : (⟨((mv.from_col : Nat) + (mv.to_col : Nat)) / 2, by
        have h1 := mv.from_col.isLt; have h2 := mv.to_col.isLt; omega⟩ : Fin 9) =
        midCell mv.from_col mv.to_col := rfl
    rw [hmd1, hmd2]
    dsimp only
    have hmfcell : ¬ ((midCell mv.from_row mv.to_row : Fin 9) = mv.from_row ∧
        (midCell mv.from_col mv.to_col : Fin 9) = mv.from_col) := fun hx => hmf hx.1
    have hmtcell : ¬ ((midCell mv.from_row mv.to_row : Fin 9) = mv.to_row ∧
        (midCell mv.from_col mv.to_col : Fin 9) = mv.to_col) := fun hx => hmt hx.1
    have hb2mid : bset (bset b mv.to_row mv.to_col p) mv.from_row mv.from_col EMPTY
        (midCell mv.from_row mv.to_row) (midCell mv.from_col mv.to_col) = -p := by
      rw [bset_ne _ _ _ _ _ _ hmfcell, bset_ne _ _ _ _ _ _ hmtcell, hmid]
    rw [hb2mid]
    rw [zhash_bset, zhash_bset, zhash_bset]
    have e1 : cellz b zt (mv.to_row, mv.to_col) = 0 := by
      simp [cellz, hto, hpe]
    have e2 : cellz (bset b mv.to_row mv.to_col p) zt (mv.to_row, mv.to_col) =
        zt mv.to_row mv.to_col (piece_index p) := by
      simp [cellz, bset_eq, hpne]
    have e3 : cellz (bset b mv.to_row mv.to_col p) zt (mv.from_row, mv.from_col) =
        zt mv.from_row mv.from_col (piece_index p) := by
      simp only [cellz]
      rw [bset_ne _ _ _ _ _ _ hnefc, hfrom]
      simp [hpne]
    have e4 : cellz (bset (bset b mv.to_row mv.to_col p) mv.from_row mv.from_col EMPTY)
        zt (mv.from_row, mv.from_col) = 0 := by
      simp [cellz, bset_eq, hpe]
    have e5 : cellz (bset (bset b mv.to_row mv.to_col p) mv.from_row mv.from_col EMPTY)
        zt (midCell mv.from_row mv.to_row, midCell mv.from_col mv.to_col) =
        zt (midCell mv.from_row mv.to_row) (midCell mv.from_col mv.to_col)
          (piece_index (-p)) := by
      simp only [cellz]
      rw [bset_ne _ _ _ _ _ _ hmfcell, bset_ne _ _ _ _ _ _ hmtcell, hmid]
      simp [hpne2]
    have e6 : cellz (bset (bset (bset b mv.to_row mv.to_col p) mv.from_row mv.from_col
        EMPTY) (midCell mv.from_row mv.to_row) (midCell mv.from_col mv.to_col) EMPTY)
        zt (midCell mv.from_row mv.to_row, midCell mv.from_col mv.to_col) = 0 := by
      simp [cellz, bset_eq, hpe]
    rw [e1, e2, e3, e4, e5, e6]
    simp [Nat.xor_assoc, Nat.xor_comm, xor_left_comm, xor_cancel_left,
      Nat.xor_self, Nat.xor_zero, Nat.zero_xor]
  case isFalse hcap =>
    rw [zhash_bset, zhash_bset]
    have e1 : cellz b zt (mv.to_row, mv.to_col) = 0 := by
      simp [cellz, hto, hpe]
    have e2 : cellz (bset b mv.to_row mv.to_col p) zt (mv.to_row, mv.to_col) =
        zt mv.to_row mv.to_col (piece_index p) := by
      simp [cellz, bset_eq, hpne]
    have e3 : cellz (bset b mv.to_row mv.to_col p) zt (mv.from_row, mv.from_col) =
        zt mv.from_row mv.from_col (piece_index p) := by
      simp only [cellz]
      rw [bset_ne _ _ _ _ _ _ hnefc, hfrom]
      simp [hpne]
    have e4 : cellz (bset (bset b mv.to_row mv.to_col p) mv.from_row mv.from_col EMPTY)
        zt (mv.from_row, mv.from_col) = 0 := by
      simp [cellz, bset_eq, hpe]
    rw [e1, e2, e3, e4]
    simp [Nat.xor_assoc, Nat.xor_comm, xor_left_comm, xor_cancel_left,
      Nat.xor_self, Nat.xor_zero, Nat.zero_xor]

/-- The board produced by `make_move` does not depend on the hash passed in. -/
theorem make_move_board_hash (b : Board) (mv : Move) (p : Int) (zh zh' : Nat)
    (zt : ZTable) : (make_move b mv p zh zt).1 = (make_move b mv p zh' zt).1 := by
  unfold make_move
  dsimp only
  split <;> rfl

/-- Folding a sequence of `make_move`s over a board and hash. -/
def applyMoves (zt : ZTable) : Board → Nat → List (Move × Int) → Board × Nat
  | b, zh, [] => (b, zh)
  | b, zh, (mv, p) :: rest =>
    let res := make_move b mv p zh zt
    applyMoves zt res.1 res.2.1 rest

/-- Every move of the sequence is one of `get_valid_moves` for the stated
side at the position where it is applied. -/
def legalSeq (zt : ZTable) : Board → List (Move × Int) → Bool
  | _, [] => true
  | b, (mv, p) :: rest =>
    decide (p = BLACK ∨ p = WHITE) && decide (mv ∈ get_valid_moves b p) &&
      legalSeq zt (make_move b mv p 0 zt).1 rest

set_option maxRecDepth 8000 in
/-- C3.  For every starting board, Zobrist table, and legal sequence of
moves applied through `make_move`, the incrementally XOR-maintained hash
after the sequence equals `compute_zobrist_hash` recomputed from scratch
on the resulting board. -/
theorem C3_hash_consistency (zt : ZTable) :
    ∀ (ms : List (Move × Int)) (b : Board),
      legalSeq zt b ms = true →
      (applyMoves zt b (compute_zobrist_hash b zt) ms).2 =
        compute_zobrist_hash (applyMoves zt b (compute_zobrist_hash b zt) ms).1 zt
  | [], b, _ => rfl
  | (mv, p) :: rest, b, hleg => by
    simp only [legalSeq, Bool.and_eq_true, decide_eq_true_eq] at hleg
    obtain ⟨⟨hp, hmem⟩, hrest⟩ := hleg
    simp only [applyMoves]
    have hbeq : (make_move b mv p 0 zt).1 =
        (make_move b mv p (compute_zobrist_hash b zt) zt).1 :=
      make_move_board_hash b mv p 0 (compute_zobrist_hash b zt) zt
    rw [hbeq] at hrest
    rw [make_move_hash zt hp hmem]
    exact C3_hash_consistency zt rest
      (make_move b mv p (compute_zobrist_hash b zt) zt).1 hrest

/-- A concrete nontrivial Zobrist table. -/
def ztableX : ZTable := fun r c k => (r : Nat) * 64 + (c : Nat) * 8 + (k : Nat) + 1

/-- A concrete legal two-move sequence on `boardA`. -/
def seqA : List (Move × Int) := [(⟨4, 4, 5, 4⟩, BLACK), (⟨7, 1, 6, 1⟩, WHITE)]

/-- Witness for C3: a concrete legal black step followed by a white step,
with a nontrivial table. -/
theorem C3_hash_consistency_witness :
    legalSeq ztableX boardA seqA = true ∧
    (applyMoves ztableX boardA (compute_zobrist_hash boardA ztableX) seqA).2 =
      compute_zobrist_hash
        (applyMoves ztableX boardA (compute_zobrist_hash boardA ztableX) seqA).1
        ztableX :=
  ⟨by decide, C3_hash_consistency ztableX seqA boardA (by decide)⟩

/-! ### C7: evaluator symmetry -/

theorem foldl_add_gen {α : Type} (f : α → ℚ) :
    ∀ (l : List α) (i : ℚ), l.foldl (fun s x => s + f x) i = i + (l.map f).sum
  | [], i => by simp
  | x :: t, i => by
    simp only [List.foldl_cons, List.map_cons, List.sum_cons]
    rw [foldl_add_gen f t (i + f x)]
    ring

theorem map_sum_neg {α : Type} (f : α → ℚ) :
    ∀ l : List α, (l.map (fun x => -f x)).sum = -(l.map f).sum
  | [] => by simp
  | x :: t => by
    simp only [List.map_cons, List.sum_cons, map_sum_neg f t]
    ring

/-- Per-cell contribution of the material/advancement/edge loop of
`evaluate_board`. -/
def cellContrib (b : Board) (p : Int) (w : Weights) (rc : Fin 9 × Fin 9) : ℚ :=
  let piece := b rc.1 rc.2
  if piece = p then
    w.piece_value +
      w.advancement_value *
        (if p = BLACK then ((rc.1 : Nat) : ℚ)
          else (((BOARD_SIZE - 1 - (rc.1 : Nat) : Nat)) : ℚ)) +
      (if is_edge_square rc.1 rc.2 then w.edge_pawn_bonus else 0)
  else if piece = -p then
    -w.piece_value -
      w.advancement_value *
        (if p = BLACK then (((BOARD_SIZE - 1 - (rc.1 : Nat) : Nat)) : ℚ)
          else ((rc.1 : Nat) : ℚ)) -
      (if is_edge_square rc.1 rc.2 then w.edge_pawn_bonus else 0)
  else 0

/-- The race-comparison term at the end of `evaluate_board`. -/
def raceCmp (w : Weights) (ai opp : List Int) : ℚ :=
  match listMin ai with
  | some min_ai_steps =>
    match listMin opp with
    | some min_opponent_steps =>
      if min_opponent_steps < min_ai_steps then w.opponent_unstoppable_pawn_penalty * 2
      else if min_ai_steps < min_opponent_steps then w.unstoppable_pawn_bonus * 2
      else 0
    | none => 0
  | none =>
    if opp.isEmpty ∧ ¬ ai.isEmpty then w.unstoppable_pawn_bonus * 2
    else if ai.isEmpty ∧ ¬ opp.isEmpty then w.opponent_unstoppable_pawn_penalty * 2
    else 0

theorem evaluate_board_nonterminal (b : Board) (p : Int) (w : Weights)
    (h : get_winner b = none) :
    evaluate_board b p w =
      (allCells.map (cellContrib b p w)).sum +
      ((get_unstoppable_pawns_steps b p).map
        (fun st => w.unstoppable_pawn_bonus / ((st : ℚ) + 1))).sum +
      ((get_unstoppable_pawns_steps b (-p)).map
        (fun st => w.opponent_unstoppable_pawn_penalty / ((st : ℚ) + 1))).sum +
      raceCmp w (get_unstoppable_pawns_steps b p) (get_unstoppable_pawns_steps b (-p)) := by
  unfold evaluate_board
  rw [h]
  dsimp only
  have hcell : allCells.foldl
      (fun score rc =>
        let piece := b rc.1 rc.2
        if piece = p then
          let score := score + w.piece_value
          let advancement : ℚ :=
            if p = BLACK then ((rc.1 : Nat) : ℚ)
            else (((BOARD_SIZE - 1 - (rc.1 : Nat) : Nat)) : ℚ)
          let score := score + w.advancement_value * advancement
          if is_edge_square rc.1 rc.2 then score + w.edge_pawn_bonus else score
        else if piece = -p then
          let score := score - w.piece_value
          let advancement : ℚ :=
            if p = BLACK then (((BOARD_SIZE - 1 - (rc.1 : Nat) : Nat)) : ℚ)
            else ((rc.1 : Nat) : ℚ)
          let score := score - w.advancement_value * advancement
          if is_edge_square rc.1 rc.2 then score - w.edge_pawn_bonus else score
        else score)
      (0 : ℚ) = (allCells.map (cellContrib b p w)).sum := by
    rw [List.foldl_ext _ (fun s rc => s + cellContrib b p w rc)
      (l := allCells) (a := (0 : ℚ))
      (fun s rc _ => by
        dsimp only [cellContrib]
        split_ifs <;> ring)]
    rw [foldl_add_gen]
    ring
  rw [hcell, foldl_add_gen, foldl_add_gen]
  cases hai : listMin (get_unstoppable_pawns_steps b p) with
  | none =>
    cases hopp : listMin (get_unstoppable_pawns_steps b (-p)) with
    | none => simp only [raceCmp, hai, hopp]; split_ifs <;> ring
    | some mo => simp only [raceCmp, hai, hopp]; split_ifs <;> ring
  | some ma =>
    cases hopp : listMin (get_unstoppable_pawns_steps b (-p)) with
    | none => simp only [raceCmp, hai, hopp]; ring
    | some mo => simp only [raceCmp, hai, hopp]; split_ifs <;> ring

theorem listMin_eq_none : ∀ {l : List Int}, listMin l = none ↔ l = []
  | [] => by simp [listMin]
  | x :: t => by
    simp only [listMin]
    cases listMin t <;> simp

theorem cellContrib_neg (b : Board) (p : Int) (w : Weights) (rc : Fin 9 × Fin 9)
    (hp : p = BLACK ∨ p = WHITE) :
    cellContrib b (-p) w rc = -cellContrib b p w rc := by
  rcases hp with rfl | rfl <;>
    · dsimp only [cellContrib, BLACK, WHITE]
      norm_num
      split_ifs <;> first | (exfalso; omega) | ring

theorem raceCmp_neg (w : Weights) (ai opp : List Int)
    (hpen : w.opponent_unstoppable_pawn_penalty = -w.unstoppable_pawn_bonus)
    (hiff : ai = [] ↔ opp = []) :
    raceCmp w opp ai = -raceCmp w ai opp := by
  cases hai : listMin ai with
  | none =>
    obtain rfl := listMin_eq_none.mp hai
    obtain rfl := hiff.mp rfl
    simp [raceCmp, listMin]
  | some ma =>
    cases hopp : listMin opp with
    | none =>
      obtain rfl := listMin_eq_none.mp hopp
      obtain rfl := hiff.mpr rfl
      simp [listMin] at hai
    | some mo =>
      simp only [raceCmp, hai, hopp]
      rcases lt_trichotomy ma mo with hlt | heq | hgt
      · have h1 : ¬ mo < ma := by omega
        simp only [if_pos hlt, if_neg h1, hpen]
        ring
      · have h1 : ¬ mo < ma := by omega
        have h2 : ¬ ma < mo := by omega
        simp only [if_neg h1, if_neg h2]
        ring
      · have h1 : ¬ ma < mo := by omega
        simp only [if_pos hgt, if_neg h1, hpen]
        ring

/-- C7 amended: evaluator symmetry `evaluate(P, s) = -evaluate(P, -s)`
holds in non-terminal positions when additionally the race weights are
opposite (`opponent_unstoppable_pawn_penalty = -unstoppable_pawn_bonus`)
and the two unstoppable-pawn lists are both empty or both non-empty. -/
theorem C7_evaluator_symmetry (b : Board) (p : Int) (w : Weights)
    (hp : p = BLACK ∨ p = WHITE)
    (hterm : get_winner b = none)
    (hpen : w.opponent_unstoppable_pawn_penalty = -w.unstoppable_pawn_bonus)
    (hiff : get_unstoppable_pawns_steps b p = [] ↔
      get_unstoppable_pawns_steps b (-p) = []) :
    evaluate_board b p w = -evaluate_board b (-p) w := by
  rw [evaluate_board_nonterminal b p w hterm,
    evaluate_board_nonterminal b (-p) w hterm, neg_neg]
  have hcell : (allCells.map (cellContrib b (-p) w)).sum =
      -(allCells.map (cellContrib b p w)).sum := by
    rw [List.map_congr_left (fun rc _ => cellContrib_neg b p w rc hp), map_sum_neg]
  have hpenmap : ∀ l : List Int,
      (l.map (fun st => w.opponent_unstoppable_pawn_penalty / ((st : ℚ) + 1))).sum =
      -(l.map (fun st => w.unstoppable_pawn_bonus / ((st : ℚ) + 1))).sum := by
    intro l
    rw [List.map_congr_left (fun st _ => by rw [hpen, neg_div]), map_sum_neg]
  have hrace := raceCmp_neg w (get_unstoppable_pawns_steps b p)
    (get_unstoppable_pawns_steps b (-p)) hpen hiff
  rw [hcell, hrace, hpenmap (get_unstoppable_pawns_steps b p),
    hpenmap (get_unstoppable_pawns_steps b (-p))]
  ring

/-- Counterexample to C7 as stated: on `boardRace` (both sides have one
unstoppable pawn) with `unstoppable_pawn_bonus = 100` and
`opponent_unstoppable_pawn_penalty = 0` shared between the sides, the
evaluation is not antisymmetric. -/
theorem C7_symmetry_counterexample :
    get_winner boardRace = none ∧
    evaluate_board boardRace BLACK weightsRace ≠
      -evaluate_board boardRace WHITE weightsRace := by
  constructor
  · decide
  · decide

/-- All-zero weights except an opposite race pair (bonus 100, penalty -100). -/
def weightsSym : Weights := ⟨1, 1, 100, -100, 0, 0, 1⟩

/-- Witness for C7 on `boardTame` (neither side has an unstoppable pawn)
with opposite race weights. -/
theorem C7_evaluator_symmetry_witness :
    ((BLACK : Int) = BLACK ∨ (BLACK : Int) = WHITE) ∧
    get_winner boardTame = none ∧
    weightsSym.opponent_unstoppable_pawn_penalty = -weightsSym.unstoppable_pawn_bonus ∧
    (get_unstoppable_pawns_steps boardTame BLACK = [] ↔
      get_unstoppable_pawns_steps boardTame (-BLACK) = []) ∧
    evaluate_board boardTame BLACK weightsSym =
      -evaluate_board boardTame (-BLACK) weightsSym :=
  ⟨Or.inl rfl, by decide, by decide, by decide,
    C7_evaluator_symmetry boardTame BLACK weightsSym (Or.inl rfl) (by decide)
      (by decide) (by decide)⟩

/-! ### C4: transposition-table probe/store discipline -/

/-- Modelled from the spec, §4.6 probe: a hit is usable only when the
stored entry's depth is at least the requested depth; an Exact hit returns
the stored value directly; a LowerBound hit raises α to max(α, v); an
UpperBound hit lowers β to min(β, v); if after tightening α ≥ β the stored
value is returned as a cutoff; otherwise the search continues with the
tightened window. -/
def specProbe (entry? : Option TranspositionTableEntry) (depth : Nat)
    (alpha beta : XQ) : ProbeResult :=
  match entry? with
  | none => .go alpha beta
  | some entry =>
    if ¬ entry.depth ≥ depth then .go alpha beta
    else
      match entry.flag with
      | .Exact => .ret entry.value entry.best_move
      | .LowerBound =>
        let alpha' := XQ.fmax alpha entry.value
        if XQ.le beta alpha' then .ret entry.value entry.best_move
        else .go alpha' beta
      | .UpperBound =>
        let beta' := XQ.fmin beta entry.value
        if XQ.le beta' alpha then .ret entry.value entry.best_move
        else .go alpha beta'

/-- Modelled from the spec, §4.6 store: the flag is UpperBound if
value ≤ α_orig, LowerBound if value ≥ β, otherwise Exact. -/
def specFlag (value alpha_orig beta : XQ) : NodeType :=
  if XQ.le value alpha_orig then .UpperBound
  else if XQ.le beta value then .LowerBound
  else .Exact

/-- C4.  The transposition-table lookup block and store-flag computation
used at every node of `negamax_search` (`ttProbe` and `ttFlag` inside
`searchStep`) coincide with the §4.6 discipline. -/
theorem C4_tt_discipline (entry? : Option TranspositionTableEntry)
    (depth : Nat) (alpha beta value alpha_orig : XQ) :
    ttProbe entry? depth alpha beta = specProbe entry? depth alpha beta ∧
    ttFlag value alpha_orig beta = specFlag value alpha_orig beta := by
  constructor
  · cases entry? with
    | none => rfl
    | some entry =>
      by_cases hd : entry.depth ≥ depth
      · cases entry.flag <;> simp [ttProbe, specProbe, hd]
      · simp [ttProbe, specProbe, hd]
  · rfl

/-! ### C6: repetition-counter balance -/

theorem counts_checkTime (clock : Nat → Bool) (s : SState) :
    (checkTime clock s).2.counts = s.counts := rfl

theorem update_bump_decr (c : Nat → Int) (h : Nat) :
    Function.update (Function.update c h (c h + 1)) h
      (Function.update c h (c h + 1) h - 1) = c := by
  rw [Function.update_same, Function.update_idem]
  simp

theorem counts_decr_bump (h : Nat) (s : SState) :
    (decrCount h (bumpCount h s)).counts = s.counts := by
  simp only [decrCount, bumpCount]
  exact update_bump_decr s.counts h

theorem searchMoves_counts (child : SearchChild) (clock : Nat → Bool)
    (zt : ZTable) (board : Board) (player : Int) (beta : XQ) (zh : Nat)
    (hchild : ∀ b p a bet hh s, ((child b p a bet hh s).2).counts = s.counts) :
    ∀ (moves : List Move) (acc : LoopAcc) (s : SState),
      ((searchMoves child clock zt board player beta zh moves acc s).2).counts =
        s.counts
  | [], _, _ => rfl
  | mv :: rest, acc, s => by
    simp only [searchMoves]
    split
    · rfl
    · split <;> split <;>
        first
          | (rw [hchild]; rfl)
          | (rw [searchMoves_counts child clock zt board player beta zh hchild rest _ _,
              hchild]; rfl)

theorem searchStep_counts (child : SearchChild) (clock : Nat → Bool)
    (w : Weights) (zt : ZTable) (board : Board) (depth : Nat) (player : Int)
    (alpha beta : XQ) (zh : Nat) (fm : Option Move) (s : SState)
    (hchild : ∀ b p a bet hh s', ((child b p a bet hh s').2).counts = s'.counts) :
    ((searchStep child clock w zt board depth player alpha beta zh fm s).2).counts =
      s.counts := by
  unfold searchStep
  dsimp only
  split
  · rfl
  · split
    · exact counts_decr_bump zh _
    · split
      · exact counts_decr_bump zh _
      · split
        · exact counts_decr_bump zh _
        · split
          · exact counts_decr_bump zh _
          · simp only [decrCount]
            rw [searchMoves_counts child clock zt board player _ zh hchild _ _ _]
            exact update_bump_decr s.counts zh

/-- C6 amended: every `negamax_search` invocation leaves the repetition
counter exactly as it found it — the increment on entry is matched by a
decrement on every return path.  In particular a top-level call seeded
with `{initial_hash: 1}` returns with the counter still `{initial_hash: 1}`
(size one), not empty. -/
theorem C6_repetition_balance (clock : Nat → Bool) (w : Weights) (zt : ZTable) :
    ∀ (depth : Nat) (board : Board) (player : Int) (alpha beta : XQ) (zh : Nat)
      (fm : Option Move) (s : SState),
      ((negamax_search clock w zt depth board player alpha beta zh fm s).2).counts =
        s.counts
  | 0, board, player, alpha, beta, zh, fm, s =>
    searchStep_counts _ clock w zt board 0 player alpha beta zh fm s
      (fun _ _ _ _ _ _ => rfl)
  | d + 1, board, player, alpha, beta, zh, fm, s =>
    searchStep_counts _ clock w zt board (d + 1) player alpha beta zh fm s
      (fun b p a bet hh s' => C6_repetition_balance clock w zt d b p a bet hh none s')

/-- A clock that never reports timeout. -/
def clockNever : Nat → Bool := fun _ => false

/-- A clock that reports timeout from the second check onwards. -/
def clockAfterFirst : Nat → Bool := fun n => !(n == 0)

/-- A clock that always reports timeout. -/
def clockAlways : Nat → Bool := fun _ => true

/-- The initial hash of `boardA` under the concrete table. -/
def ihA : Nat := compute_zobrist_hash boardA ztableX

/-- The per-query state as seeded by the iterative-deepening loop:
empty transposition table, counter `{initial_hash: 1}`. -/
def sSeedA : SState := ⟨fun _ => none, fun h => if h = ihA then 1 else 0, 0⟩

/-- The empty per-query state. -/
def sEmpty : SState := ⟨fun _ => none, fun _ => 0, 0⟩

/-- Counterexample to C6 as stated: a full depth-1 top-level search on
`boardA`, seeded with `{initial_hash: 1}`, returns with the counter still
holding count 1 for the initial hash — size one, not zero. -/
theorem C6_repetition_counterexample :
    ((negamax_search clockNever weights0 ztableX 1 boardA BLACK .ninf .pinf
        ihA none sSeedA).2).counts ihA = 1 ∧
    sSeedA.counts ihA = 1 ∧ (1 : Int) ≠ 0 := by
  refine ⟨?_, by decide, by decide⟩
  rw [C6_repetition_balance clockNever weights0 ztableX 1 boardA BLACK
    .ninf .pinf ihA none sSeedA]
  decide

/-! ### C8: stores after timeout -/

/-- C8 amended (part 1): on the node-entry timeout path, `negamax_search`
stores nothing — the transposition table is returned unchanged (and the
neutral `(0, none, [])` result is produced). -/
theorem C8_no_store_on_entry_timeout (clock : Nat → Bool) (w : Weights)
    (zt : ZTable) (depth : Nat) (board : Board) (player : Int)
    (alpha beta : XQ) (zh : Nat) (fm : Option Move) (s : SState)
    (h : clock s.tick = true) :
    ((negamax_search clock w zt depth board player alpha beta zh fm s).2).tt = s.tt ∧
    (negamax_search clock w zt depth board player alpha beta zh fm s).1 =
      (.num 0, none, []) := by
  cases depth <;>
    · unfold negamax_search searchStep
      dsimp only
      simp [checkTime, h]

theorem C8_no_store_on_entry_timeout_witness :
    clockAlways sEmpty.tick = true ∧
    ((negamax_search clockAlways weights0 ztableX 3 boardA BLACK .ninf .pinf
        ihA none sEmpty).2).tt = sEmpty.tt :=
  ⟨rfl, (C8_no_store_on_entry_timeout clockAlways weights0 ztableX 3 boardA BLACK
    .ninf .pinf ihA none sEmpty rfl).1⟩

/-- Counterexample to C8 as stated: with a clock that expires right after
node entry, the depth-1 search on `boardA` breaks out of its move loop
before searching any move, yet still falls through to the store and
inserts an `Exact` entry with the loop's initial value `LOSE_SCORE` and no
best move. -/
theorem C8_store_after_midloop_timeout_counterexample :
    clockAfterFirst 0 = false ∧ clockAfterFirst 1 = true ∧
    ((negamax_search clockAfterFirst weights0 ztableX 1 boardA BLACK .ninf .pinf
        ihA none sEmpty).2).tt ihA =
      some ⟨1, .num LOSE_SCORE, NodeType.Exact, none⟩ := by
  refine ⟨by decide, by decide, by decide⟩

/-! ### C5: iterative deepening commits only fully completed iterations -/

/-- Modelled from the spec (§4.8, §5): the sequence of results committed
by the fully completed iterative-deepening iterations — an iteration
commits its `(move, value, pv)` exactly when its search returns a move and
the wall clock has not expired before or after the call; the first
breaking iteration ends the sequence. -/
def specCommits (clock : Nat → Bool) (w : Weights) (zt : ZTable) (board : Board)
    (player : Int) (ih : Nat) : List Nat → Committed → SState → List Committed
  | [], _, _ => []
  | depth :: rest, cmt, s =>
    let ts := checkTime clock s
    if ts.1 then []
    else
      let s' := { ts.2 with counts := fun h => if h = ih then 1 else 0 }
      let res := negamax_search clock w zt depth board player .ninf .pinf ih cmt.1 s'
      let ts2 := checkTime clock res.2
      if ts2.1 then []
      else
        match res.1.2.1 with
        | some m =>
          (some m, res.1.1, res.1.2.2) ::
            specCommits clock w zt board player ih rest (some m, res.1.1, res.1.2.2) ts2.2
        | none => []

/-- The iterative-deepening loop returns exactly the last committed triple
(or the incoming one if no iteration commits). -/
theorem idLoop_eq_lastCommit (clock : Nat → Bool) (w : Weights) (zt : ZTable)
    (board : Board) (player : Int) (ih : Nat) :
    ∀ (depths : List Nat) (cmt : Committed) (s : SState),
      (idLoop clock w zt board player ih depths cmt s).1 =
        (specCommits clock w zt board player ih depths cmt s).getLastD cmt
  | [], _, _ => rfl
  | depth :: rest, cmt, s => by
    simp only [idLoop, specCommits]
    split
    · simp
    · split
      · simp
      · split
        · simp only [List.getLastD_cons]
          exact idLoop_eq_lastCommit clock w zt board player ih rest _ _
        · simp

/-- C5.  For every query that reaches the iterative-deepening loop (no
negative budget, no single-capture or single-step fast path), `negamax`
returns exactly the result committed by the last fully completed
iteration, the initial `(none, 0, [])` if none completed: iterations whose
search returns no move or which finish after the budget has expired never
overwrite the committed result. -/
theorem C5_last_completed_iteration (clock : Nat → Bool) (board : Board)
    (max_depth : Int) (player : Int) (w : Weights) (zt : ZTable)
    (time_limit : ℚ)
    (h0 : ¬ time_limit < 0)
    (h1 : ¬ (¬ (get_all_valid_moves board player).1.isEmpty ∧
      (get_all_valid_moves board player).1.length = 1))
    (h2 : ¬ ((get_all_valid_moves board player).1.isEmpty ∧
      (get_all_valid_moves board player).2.length = 1)) :
    negamax clock board max_depth player w zt time_limit =
      some ((specCommits clock w zt board player
          (compute_zobrist_hash board zt)
          (List.range' 1 max_depth.toNat) (none, .num 0, [])
          ⟨fun _ => none, fun _ => 0, 0⟩).getLastD (none, .num 0, [])) := by
  unfold negamax
  rw [if_neg h0]
  dsimp only
  rw [if_neg h1, if_neg h2,
    idLoop_eq_lastCommit clock w zt board player (compute_zobrist_hash board zt)
      (List.range' 1 max_depth.toNat) (none, .num 0, []) _]

/-- Witness for C5: `boardA` (three steps, no captures) with depth bound 0
— no iteration runs and the initial commitment is returned. -/
theorem C5_last_completed_iteration_witness :
    (¬ (1 : ℚ) < 0) ∧
    (¬ (¬ (get_all_valid_moves boardA BLACK).1.isEmpty ∧
      (get_all_valid_moves boardA BLACK).1.length = 1)) ∧
    (¬ ((get_all_valid_moves boardA BLACK).1.isEmpty ∧
      (get_all_valid_moves boardA BLACK).2.length = 1)) ∧
    negamax clockNever boardA 0 BLACK weights0 ztableX 1 =
      some ((specCommits clockNever weights0 ztableX boardA BLACK
          (compute_zobrist_hash boardA ztableX)
          (List.range' 1 (0 : Int).toNat) (none, .num 0, [])
          ⟨fun _ => none, fun _ => 0, 0⟩).getLastD (none, .num 0, [])) :=
  ⟨by decide, by decide, by decide,
    C5_last_completed_iteration clockNever boardA 0 BLACK weights0 ztableX 1
      (by decide) (by decide) (by decide)⟩

/-! ### C9: input validation -/

/-- Black at (0,0) blocked on its right by White: exactly one legal step,
no captures. -/
def boardSingle : Board := fun r c =>
  if r = (0 : Fin 9) ∧ c = (0 : Fin 9) then BLACK
  else if r = (0 : Fin 9) ∧ c = (1 : Fin 9) then WHITE
  else EMPTY

/-- Counterexample to C9 as stated: a query with non-positive maximum
depth (0) is not rejected — `negamax` returns a normal move result through
the single-step fast path. -/
theorem C9_depth_not_rejected_counterexample :
    negamax clockNever boardSingle 0 BLACK weights0 ztableX 1 =
      some (some ⟨0, 0, 1, 0⟩, .num (evaluate_board boardSingle BLACK weights0),
        [⟨0, 0, 1, 0⟩]) ∧
    ¬ (0 : Int) > 0 := by
  refine ⟨by decide, by decide⟩

/-- C9 amended: a negative time budget makes `Duration::from_secs_f64`
panic before any searching, so no normal result is produced (embedded as
`none`); a non-positive maximum depth is not rejected — the engine still
answers normally (the fast paths may even return a move). -/
theorem C9_negative_budget_rejected (clock : Nat → Bool) (board : Board)
    (max_depth : Int) (player : Int) (w : Weights) (zt : ZTable)
    (time_limit : ℚ) (h : time_limit < 0) :
    negamax clock board max_depth player w zt time_limit = none := by
  unfold negamax
  rw [if_pos h]

theorem C9_negative_budget_rejected_witness :
    ((-1 : ℚ) < 0) ∧
    negamax clockNever boardA 5 BLACK weights0 ztableX (-1) = none :=
  ⟨by norm_num,
    C9_negative_budget_rejected clockNever boardA 5 BLACK weights0 ztableX (-1)
      (by norm_num)⟩
